import Mathlib

/-!
Verification of the shared core of the `kt` Kafka CLI tool
(`common.go`, `main.go`): the JVM-style string-hash partitioner,
the sign-safe absolute value, the username sanitizer, the random
hex-token generator, the version resolver, the transform selector
and the output-multiplexer loop, shallowly embedded in Lean.

Machine integers are modelled as `Int` with explicit wrapping at
32 bits (`wrap32`); Go strings ranged over by code point are
modelled as Lean `String`/`List Char` (a Lean `Char` is a Unicode
scalar value, exactly the values Go's range-over-string yields,
with invalid UTF-8 bytes surfacing as U+FFFD, itself a scalar value).
-/

/-- Reduce an integer into the 32-bit two's-complement window
`[-2^31, 2^31)`, the result of a wrapping `int32` operation in Go. -/
def wrap32 (n : Int) : Int :=
  (n + 2 ^ 31) % 2 ^ 32 - 2 ^ 31

/-- Embedding of Go `unicode/utf16.EncodeRune`: for a code point
outside `[0x10000, 0x10FFFF]` it returns the replacement character
U+FFFD twice, otherwise the UTF-16 surrogate pair. -/
def encodeRune (r : Nat) : Nat × Nat :=
  if r < 0x10000 ∨ 0x10FFFF < r then
    (0xFFFD, 0xFFFD)
  else
    (0xD800 + (((r - 0x10000) >>> 10) &&& 0x3FF),
     0xDC00 + ((r - 0x10000) &&& 0x3FF))

/-- One iteration of the loop body of `hashCode` in `common.go`:
fold the code point `r` into the accumulator `hc`, as a surrogate
pair when `utf16.EncodeRune` did not return the replacement pair. -/
def hashCodeStep (hc : Int) (r : Nat) : Int :=
  let p := encodeRune r
  if p.1 = 0xFFFD ∧ p.1 = p.2 then
    wrap32 (hc * 31 + r)
  else
    wrap32 (wrap32 (hc * 31 + p.1) * 31 + p.2)

/-- Embedding of `hashCode` from `common.go`: iterate the string's
code points in order, folding each with `hashCodeStep`, starting
from `0`. -/
def hashCode (s : String) : Int :=
  s.data.foldl (fun hc c => hashCodeStep hc c.toNat) 0

/-- Embedding of `kafkaAbs` from `common.go`: `0` at
`Integer.MIN_VALUE`, otherwise the (wrapping) negation of a
negative argument, otherwise the argument itself. -/
def kafkaAbs (i : Int) : Int :=
  if i = -2147483648 then 0
  else if i < 0 then wrap32 (i * -1)
  else i

/-- Embedding of `hashCodePartition` from `common.go`. Go's `%` on
`int32` is truncated division remainder, i.e. `Int.tmod`. -/
def hashCodePartition (key : String) (partitions : Int) : Int :=
  if partitions ≤ 0 then -1
  else Int.tmod (kafkaAbs (hashCode key)) partitions

/-! ### Range lemmas for the 32-bit arithmetic -/

lemma wrap32_lb (n : Int) : -2 ^ 31 ≤ wrap32 n := by
  unfold wrap32
  have h : (0 : Int) ≤ (n + 2 ^ 31) % 2 ^ 32 :=
    Int.emod_nonneg _ (by norm_num)
  omega

lemma wrap32_ub (n : Int) : wrap32 n < 2 ^ 31 := by
  unfold wrap32
  have h : (n + 2 ^ 31) % 2 ^ 32 < 2 ^ 32 :=
    Int.emod_lt_of_pos _ (by norm_num)
  omega

lemma wrap32_eq_self {n : Int} (h1 : -2 ^ 31 ≤ n) (h2 : n < 2 ^ 31) :
    wrap32 n = n := by
  unfold wrap32
  rw [Int.emod_eq_of_lt (by omega) (by omega)]
  omega

lemma hashCodeStep_lb (hc : Int) (r : Nat) : -2 ^ 31 ≤ hashCodeStep hc r := by
  unfold hashCodeStep
  dsimp only
  split <;> exact wrap32_lb _

lemma hashCodeStep_ub (hc : Int) (r : Nat) : hashCodeStep hc r < 2 ^ 31 := by
  unfold hashCodeStep
  dsimp only
  split <;> exact wrap32_ub _

lemma foldl_hashCodeStep_range (l : List Char) :
    ∀ hc : Int, -2 ^ 31 ≤ hc → hc < 2 ^ 31 →
      -2 ^ 31 ≤ l.foldl (fun hc c => hashCodeStep hc c.toNat) hc ∧
      l.foldl (fun hc c => hashCodeStep hc c.toNat) hc < 2 ^ 31 := by
  induction l with
  | nil => intro hc h1 h2; exact ⟨h1, h2⟩
  | cons c cs ih =>
      intro hc _ _
      exact ih _ (hashCodeStep_lb hc c.toNat) (hashCodeStep_ub hc c.toNat)

lemma hashCode_lb (s : String) : -2 ^ 31 ≤ hashCode s :=
  (foldl_hashCodeStep_range s.data 0 (by norm_num) (by norm_num)).1

lemma hashCode_ub (s : String) : hashCode s < 2 ^ 31 :=
  (foldl_hashCodeStep_range s.data 0 (by norm_num) (by norm_num)).2

lemma kafkaAbs_nonneg {i : Int} (h1 : -2 ^ 31 ≤ i) : 0 ≤ kafkaAbs i := by
  unfold kafkaAbs
  split
  · omega
  · split
    · rw [wrap32_eq_self (by omega) (by omega)]; omega
    · omega

lemma kafkaAbs_lt {i : Int} (h1 : -2 ^ 31 ≤ i) (h2 : i < 2 ^ 31) :
    kafkaAbs i < 2 ^ 31 := by
  unfold kafkaAbs
  split
  · omega
  · split
    · rw [wrap32_eq_self (by omega) (by omega)]; omega
    · omega

/-! ### C1: sentinel for non-positive counts, range for positive counts -/

/-- C1. For every key `k`: if the partition count `n` is `≤ 0`,
`hashCodePartition k n = -1`; and for every `n > 0` the result lies
in `[0, n)`. -/
theorem hashCodePartition_sentinel_and_range (k : String) (n : Int) :
    (n ≤ 0 → hashCodePartition k n = -1) ∧
    (0 < n → 0 ≤ hashCodePartition k n ∧ hashCodePartition k n < n) := by
  constructor
  · intro hn
    unfold hashCodePartition
    rw [if_pos hn]
  · intro hn
    unfold hashCodePartition
    rw [if_neg (by omega)]
    have ha : 0 ≤ kafkaAbs (hashCode k) := kafkaAbs_nonneg (hashCode_lb k)
    exact ⟨Int.tmod_nonneg _ ha, Int.tmod_lt_of_pos _ hn⟩

/-- Witness for C1 at `k = "kafka"`, `n = 0` and `n = 3`. -/
theorem hashCodePartition_sentinel_and_range_witness :
    hashCodePartition "kafka" 0 = -1 ∧
    (0 ≤ hashCodePartition "kafka" 3 ∧ hashCodePartition "kafka" 3 < 3) :=
  ⟨(hashCodePartition_sentinel_and_range "kafka" 0).1 (by norm_num),
   (hashCodePartition_sentinel_and_range "kafka" 3).2 (by norm_num)⟩

/-! ### C2: the hash reproduces the JVM `String.hashCode` over UTF-16 units

Spec-side definitions, written from the spec's words: a string's
UTF-16 code-unit sequence (one unit per BMP code point, a surrogate
pair `(high, low)` otherwise) and the JVM hash that folds
`hc = hc*31 + unit` over the units in 32-bit wrapping arithmetic. -/

/-- The UTF-16 code units of a single code point, per the spec: BMP
code points stand alone, others become the surrogate pair. -/
def utf16UnitsOfChar (c : Char) : List Nat :=
  if c.toNat < 0x10000 then [c.toNat]
  else [0xD800 + (c.toNat - 0x10000) / 1024, 0xDC00 + (c.toNat - 0x10000) % 1024]

/-- The UTF-16 code-unit sequence of a string, per the spec. -/
def utf16Units (s : String) : List Nat :=
  s.data.flatMap utf16UnitsOfChar

/-- One fold step of the reference JVM `String.hashCode`:
`hc = hc*31 + unit`, wrapping at 32 bits. -/
def jvmStep (hc : Int) (u : Nat) : Int :=
  wrap32 (hc * 31 + u)

/-- The reference JVM `String.hashCode` over a UTF-16 code-unit
sequence: fold `jvmStep` over the units, starting from `0`. -/
def jvmHashCode (units : List Nat) : Int :=
  units.foldl jvmStep 0

lemma char_toNat_lt (c : Char) : c.toNat < 0x110000 := by
  have h := c.valid
  rcases h with h | ⟨_, h2⟩
  · exact Nat.lt_trans h (by norm_num)
  · exact h2

lemma hashCodeStep_bmp (hc : Int) (c : Char) (h : c.toNat < 0x10000) :
    hashCodeStep hc c.toNat = wrap32 (hc * 31 + c.toNat) := by
  unfold hashCodeStep encodeRune
  rw [if_pos (Or.inl h)]
  simp

lemma encodeRune_supplementary {r : Nat} (h1 : 0x10000 ≤ r) (h2 : r < 0x110000) :
    encodeRune r = (0xD800 + (r - 0x10000) / 1024, 0xDC00 + (r - 0x10000) % 1024) := by
  unfold encodeRune
  rw [if_neg (by omega)]
  have hx : r - 0x10000 < 2 ^ 20 := by omega
  have hdiv : (r - 0x10000) >>> 10 = (r - 0x10000) / 2 ^ 10 :=
    Nat.shiftRight_eq_div_pow _ _
  have hdlt : (r - 0x10000) / 2 ^ 10 < 2 ^ 10 :=
    Nat.div_lt_of_lt_mul (by omega)
  have h1023 : (0x3FF : Nat) = 2 ^ 10 - 1 := by norm_num
  have hhigh : ((r - 0x10000) >>> 10) &&& 0x3FF = (r - 0x10000) / 1024 := by
    rw [hdiv, h1023, Nat.and_pow_two_sub_one_of_lt_two_pow hdlt]
    try norm_num
  have hlow : (r - 0x10000) &&& 0x3FF = (r - 0x10000) % 1024 := by
    rw [h1023, Nat.and_pow_two_sub_one_eq_mod]
    try norm_num
  rw [hhigh, hlow]

lemma hashCodeStep_supplementary (hc : Int) (c : Char) (h : 0x10000 ≤ c.toNat) :
    hashCodeStep hc c.toNat =
      wrap32 (wrap32 (hc * 31 + ((0xD800 + (c.toNat - 0x10000) / 1024 : Nat) : Int)) * 31
        + ((0xDC00 + (c.toNat - 0x10000) % 1024 : Nat) : Int)) := by
  unfold hashCodeStep
  rw [encodeRune_supplementary h (char_toNat_lt c)]
  dsimp only
  rw [if_neg]
  omega

lemma hashCodeStep_eq_foldl_units (hc : Int) (c : Char) :
    hashCodeStep hc c.toNat = (utf16UnitsOfChar c).foldl jvmStep hc := by
  unfold utf16UnitsOfChar
  by_cases h : c.toNat < 0x10000
  · rw [if_pos h, hashCodeStep_bmp hc c h]
    simp [List.foldl, jvmStep]
  · rw [if_neg h, hashCodeStep_supplementary hc c (by omega)]
    simp [List.foldl, jvmStep]

lemma foldl_hashCode_flatMap (l : List Char) :
    ∀ hc : Int,
      l.foldl (fun hc c => hashCodeStep hc c.toNat) hc =
      (l.flatMap utf16UnitsOfChar).foldl jvmStep hc := by
  induction l with
  | nil => intro hc; rfl
  | cons c cs ih =>
      intro hc
      rw [List.foldl_cons, List.flatMap_cons, List.foldl_append,
        ← hashCodeStep_eq_foldl_units hc c, ih]

/-- C2. The implemented hash coincides with the reference JVM
`String.hashCode` computed over the string's UTF-16 code-unit
sequence; per code point, a BMP code point (the replacement
character U+FFFD included) is folded once as `hc = hc*31 + cp`,
while a supplementary code point is folded as its surrogate pair
`(high, low)`, i.e. `hc = (hc*31 + high)*31 + low`, all wrapping at
32 bits. -/
theorem hashCode_eq_jvmHashCode :
    (∀ s : String, hashCode s = jvmHashCode (utf16Units s)) ∧
    (∀ (hc : Int) (c : Char), c.toNat < 0x10000 →
      hashCodeStep hc c.toNat = wrap32 (hc * 31 + c.toNat)) ∧
    (∀ (hc : Int) (c : Char), 0x10000 ≤ c.toNat →
      hashCodeStep hc c.toNat =
        wrap32 (wrap32 (hc * 31 + ((0xD800 + (c.toNat - 0x10000) / 1024 : Nat) : Int)) * 31
          + ((0xDC00 + (c.toNat - 0x10000) % 1024 : Nat) : Int))) :=
  ⟨fun s => foldl_hashCode_flatMap s.data 0,
   hashCodeStep_bmp,
   hashCodeStep_supplementary⟩

/-- Witness for C2: the whole-string refinement at `"a𝄞"` (which
contains the supplementary code point U+1D11E), the BMP step at
`'a'`, and the surrogate-pair step at `'𝄞'`. -/
theorem hashCode_eq_jvmHashCode_witness :
    hashCode "a𝄞" = jvmHashCode (utf16Units "a𝄞") ∧
    hashCodeStep 0 'a'.toNat = wrap32 (0 * 31 + 'a'.toNat) ∧
    hashCodeStep 97 '𝄞'.toNat =
      wrap32 (wrap32 (97 * 31 + ((0xD800 + ('𝄞'.toNat - 0x10000) / 1024 : Nat) : Int)) * 31
        + ((0xDC00 + ('𝄞'.toNat - 0x10000) % 1024 : Nat) : Int)) :=
  ⟨hashCode_eq_jvmHashCode.1 "a𝄞",
   hashCode_eq_jvmHashCode.2.1 0 'a' (by decide),
   hashCode_eq_jvmHashCode.2.2 97 '𝄞' (by decide)⟩

/-! ### C3: concrete hash values -/

/-- Counterexample for C3: the hash of `"kafka"` is not `105354032`
(its actual value is `101807910`). -/
theorem hashCode_kafka_ne_claimed : ¬ hashCode "kafka" = 105354032 := by
  decide

/-- C3 (amended): `hashCode "kafka" = 101807910` (the reference JVM
value for that input, so partitioning of `"kafka"` is determined by
that hash), `hashCode "" = 0`, and `hashCodePartition "" n = 0` for
every `n > 0`. -/
theorem hashCode_kafka_and_empty :
    hashCode "kafka" = 101807910 ∧
    hashCode "" = 0 ∧
    ∀ n : Int, 0 < n → hashCodePartition "" n = 0 := by
  refine ⟨by decide, by decide, ?_⟩
  intro n hn
  unfold hashCodePartition
  rw [if_neg (by omega)]
  have h0 : hashCode "" = 0 := by decide
  rw [h0]
  have hk : kafkaAbs 0 = 0 := by decide
  rw [hk]
  exact Int.zero_tmod n

/-- Witness for C3's quantified part at `n = 7`. -/
theorem hashCode_kafka_and_empty_witness :
    hashCodePartition "" 7 = 0 :=
  hashCode_kafka_and_empty.2.2 7 (by norm_num)

/-! ### C4: the sign-safe absolute value -/

/-- C4. For every 32-bit value `i`, `kafkaAbs i` is the magnitude
`|i|` except at `Integer.MIN_VALUE`, where it is `0`; consequently a
key whose hash is `Integer.MIN_VALUE` is sent to partition `0` for
every positive partition count. -/
theorem kafkaAbs_magnitude_except_min :
    (∀ i : Int, -2 ^ 31 ≤ i → i < 2 ^ 31 →
      kafkaAbs i = if i = -2 ^ 31 then 0 else |i|) ∧
    (∀ (key : String) (n : Int), 0 < n → hashCode key = -2 ^ 31 →
      hashCodePartition key n = 0) := by
  constructor
  · intro i h1 h2
    unfold kafkaAbs
    by_cases hmin : i = -2 ^ 31
    · rw [if_pos (by omega), if_pos hmin]
    · rw [if_neg (by omega), if_neg hmin]
      by_cases hneg : i < 0
      · rw [if_pos hneg, wrap32_eq_self (by omega) (by omega)
        , abs_of_neg hneg]
        ring
      · rw [if_neg hneg, abs_of_nonneg (by omega)]
  · intro key n hn hmin
    unfold hashCodePartition
    rw [if_neg (by omega), hmin]
    have hk : kafkaAbs (-2 ^ 31) = 0 := by decide
    rw [hk]
    exact Int.zero_tmod n

/-- Witness for C4 at `i = Integer.MIN_VALUE` and at the key
`"xfjfxtf"`, whose hash is exactly `Integer.MIN_VALUE`, with `n = 5`. -/
theorem kafkaAbs_magnitude_except_min_witness :
    kafkaAbs (-2 ^ 31) = (if (-2 ^ 31 : Int) = -2 ^ 31 then 0 else |(-2 ^ 31 : Int)|) ∧
    hashCodePartition "xfjfxtf" 5 = 0 :=
  ⟨kafkaAbs_magnitude_except_min.1 (-2 ^ 31) (by norm_num) (by norm_num),
   kafkaAbs_magnitude_except_min.2 "xfjfxtf" 5 (by norm_num) (by decide)⟩

/-! ### The username sanitizer (`sanitizeUsername`, C8 and C10)

`invalidClientIDCharactersRegExp = [^a-zA-Z0-9_-]` turns into the
predicate below; `strings.Split(u, "\\")` with a one-character
separator turns into `splitOnChar`, and `s[len(s)-1]` into
`getLastD` (the split result is never empty). -/

/-- A character the regexp `[^a-zA-Z0-9_-]` does NOT remove. -/
def isValidClientIDChar (c : Char) : Bool :=
  ('a' ≤ c && c ≤ 'z') || ('A' ≤ c && c ≤ 'Z') ||
  ('0' ≤ c && c ≤ '9') || c = '_' || c = '-'

/-- Embedding of Go `strings.Split` restricted to a one-character
separator: cut the list at every occurrence of `sep`. -/
def splitOnChar (sep : Char) : List Char → List (List Char)
  | [] => [[]]
  | c :: cs =>
    let r := splitOnChar sep cs
    if c = sep then [] :: r
    else
      match r with
      | [] => [[c]]
      | x :: xs => (c :: x) :: xs

/-- Embedding of `sanitizeUsername` from `common.go`: split on
backslashes, keep the last segment, drop the invalid characters. -/
def sanitizeUsername (u : String) : String :=
  ⟨((splitOnChar '\\' u.data).getLastD []).filter isValidClientIDChar⟩

/-- Spec-side description of "the segment after the last backslash":
drop everything up to and including the last `sep`. -/
def tailAfterLast (sep : Char) : List Char → List Char
  | [] => []
  | c :: cs => if sep ∈ cs ∨ c = sep then tailAfterLast sep cs else c :: cs

lemma splitOnChar_ne_nil (sep : Char) (l : List Char) :
    splitOnChar sep l ≠ [] := by
  cases l with
  | nil => simp [splitOnChar]
  | cons c cs =>
      unfold splitOnChar
      dsimp only
      split
      · simp
      · split <;> simp

lemma splitOnChar_of_not_mem (sep : Char) {l : List Char} (h : sep ∉ l) :
    splitOnChar sep l = [l] := by
  induction l with
  | nil => rfl
  | cons c cs ih =>
      unfold splitOnChar
      dsimp only
      rw [if_neg (by rintro rfl; exact h (List.mem_cons_self _ _)),
        ih (fun hm => h (List.mem_cons_of_mem _ hm))]

lemma splitOnChar_of_mem (sep : Char) {l : List Char} (h : sep ∈ l) :
    ∃ x xs, splitOnChar sep l = x :: xs ∧ xs ≠ [] := by
  induction l with
  | nil => cases h
  | cons c cs ih =>
      unfold splitOnChar
      dsimp only
      by_cases hc : c = sep
      · exact ⟨[], splitOnChar sep cs, by rw [if_pos hc], splitOnChar_ne_nil sep cs⟩
      · have hm : sep ∈ cs := by
          cases h with
          | head => exact absurd rfl hc
          | tail _ h2 => exact h2
        obtain ⟨x, xs, hsplit, hxs⟩ := ih hm
        refine ⟨c :: x, xs, ?_, hxs⟩
        rw [if_neg hc, hsplit]

lemma getLastD_cons_of_ne_nil {α : Type} {xs : List α} (h : xs ≠ []) (a d : α) :
    (a :: xs).getLastD d = xs.getLastD d := by
  cases xs with
  | nil => exact absurd rfl h
  | cons y ys => rw [List.getLastD_cons, List.getLastD_cons, List.getLastD_cons]

lemma splitOnChar_getLastD (sep : Char) (l : List Char) :
    (splitOnChar sep l).getLastD [] = tailAfterLast sep l := by
  induction l with
  | nil => rfl
  | cons c cs ih =>
      unfold splitOnChar tailAfterLast
      dsimp only
      by_cases hc : c = sep
      · rw [if_pos hc, if_pos (Or.inr hc), List.getLastD_cons, ← ih]
      · rw [if_neg hc]
        by_cases hm : sep ∈ cs
        · obtain ⟨x, xs, hsplit, hxs⟩ := splitOnChar_of_mem sep hm
          rw [hsplit, if_pos (Or.inl hm), ← ih, hsplit,
            getLastD_cons_of_ne_nil hxs, getLastD_cons_of_ne_nil hxs]
        · rw [splitOnChar_of_not_mem sep hm,
            if_neg (by push_neg; exact ⟨hm, hc⟩)]
          rfl

/-! ### C8: what the sanitizer computes -/

/-- C8. For every input, the sanitizer keeps exactly the segment
after the last backslash and removes from it every character outside
`[A-Za-z0-9_-]`; in particular `sanitize "DOMAIN\Jane Doe!"` is
`"JaneDoe"` and the empty input gives the empty output. -/
theorem sanitizeUsername_spec :
    (∀ u : String,
      (sanitizeUsername u).data =
        (tailAfterLast '\\' u.data).filter isValidClientIDChar) ∧
    sanitizeUsername "DOMAIN\\Jane Doe!" = "JaneDoe" ∧
    sanitizeUsername "" = "" := by
  refine ⟨fun u => ?_, by decide, by decide⟩
  show ((splitOnChar '\\' u.data).getLastD []).filter isValidClientIDChar =
    (tailAfterLast '\\' u.data).filter isValidClientIDChar
  rw [splitOnChar_getLastD]

/-! ### C10: the sanitizer is idempotent -/

lemma backslash_not_valid : isValidClientIDChar '\\' = false := by decide

lemma backslash_not_mem_sanitized (u : String) :
    '\\' ∉ (sanitizeUsername u).data := by
  intro hmem
  have h : isValidClientIDChar '\\' = true := (List.mem_filter.mp hmem).2
  rw [backslash_not_valid] at h
  exact Bool.false_ne_true h

/-- C10. The sanitizer is idempotent: its output contains no
backslash and no invalid character, so a second application splits
into a single segment and removes nothing. -/
theorem sanitizeUsername_idempotent (u : String) :
    sanitizeUsername (sanitizeUsername u) = sanitizeUsername u := by
  have h2 : ∀ a ∈ (sanitizeUsername u).data, isValidClientIDChar a :=
    fun a ha => (List.mem_filter.mp ha).2
  show (⟨((splitOnChar '\\' (sanitizeUsername u).data).getLastD []).filter
    isValidClientIDChar⟩ : String) = sanitizeUsername u
  rw [splitOnChar_of_not_mem '\\' (backslash_not_mem_sanitized u)]
  show (⟨((sanitizeUsername u).data).filter isValidClientIDChar⟩ : String) =
    sanitizeUsername u
  rw [List.filter_eq_self.mpr h2]

/-! ### The version resolver (`kafkaVersion`, C6)

The `sarama.KafkaVersion` constants named in `common.go` become an
enumeration; `failf` (which prints and exits the process) becomes
`Except.error` carrying the printed message. -/

/-- The protocol versions named in `kafkaVersion` in `common.go`. -/
inductive KafkaVersion where
  | V0_8_2_0 | V0_8_2_1 | V0_8_2_2
  | V0_9_0_0 | V0_9_0_1
  | V0_10_0_0 | V0_10_0_1 | V0_10_1_0 | V0_10_2_0
deriving DecidableEq

/-- The default version `dflt := sarama.V0_10_0_0` in `common.go`. -/
def kafkaVersionDefault : KafkaVersion := .V0_10_0_0

/-- Embedding of `kafkaVersion` from `common.go`; the `failf` call
becomes `Except.error` with the formatted message (`%#v` quotes the
input string). -/
def kafkaVersion (s : String) : Except String KafkaVersion :=
  if s = "v0.8.2.0" then .ok .V0_8_2_0
  else if s = "v0.8.2.1" then .ok .V0_8_2_1
  else if s = "v0.8.2.2" then .ok .V0_8_2_2
  else if s = "v0.9.0.0" then .ok .V0_9_0_0
  else if s = "v0.9.0.1" then .ok .V0_9_0_1
  else if s = "v0.10.0.0" then .ok .V0_10_0_0
  else if s = "v0.10.0.1" then .ok .V0_10_0_1
  else if s = "v0.10.1.0" then .ok .V0_10_1_0
  else if s = "v0.10.2.0" then .ok .V0_10_2_0
  else if s = "" then .ok kafkaVersionDefault
  else .error ("unsupported kafka version " ++ s.quote ++
    " - supported: v0.8.2.0, v0.8.2.1, v0.8.2.2, v0.9.0.0, v0.9.0.1, v0.10.0.0, v0.10.0.1, v0.10.1.0, v0.10.2.0")

/-- The non-empty version strings the `switch` in `kafkaVersion`
recognizes, in source order. -/
def supportedVersionStrings : List String :=
  ["v0.8.2.0", "v0.8.2.1", "v0.8.2.2", "v0.9.0.0", "v0.9.0.1",
   "v0.10.0.0", "v0.10.0.1", "v0.10.1.0", "v0.10.2.0"]

lemma kafkaVersion_unsupported {s : String} (hne : s ≠ "")
    (hmem : s ∉ supportedVersionStrings) :
    kafkaVersion s = .error ("unsupported kafka version " ++ s.quote ++
      " - supported: v0.8.2.0, v0.8.2.1, v0.8.2.2, v0.9.0.0, v0.9.0.1, v0.10.0.0, v0.10.0.1, v0.10.1.0, v0.10.2.0") := by
  simp only [supportedVersionStrings, List.mem_cons, List.not_mem_nil, or_false] at hmem
  push_neg at hmem
  obtain ⟨h1, h2, h3, h4, h5, h6, h7, h8, h9⟩ := hmem
  unfold kafkaVersion
  rw [if_neg h1, if_neg h2, if_neg h3, if_neg h4, if_neg h5, if_neg h6,
    if_neg h7, if_neg h8, if_neg h9, if_neg hne]

lemma kafkaVersion_isOk_mem {s : String} (hne : s ≠ "")
    (h : (kafkaVersion s).isOk = true) : s ∈ supportedVersionStrings := by
  by_contra hmem
  rw [kafkaVersion_unsupported hne hmem] at h
  exact Bool.false_ne_true h

/-- Counterexample for C6: there is no set of ten distinct non-empty
strings all accepted by the resolver — the `switch` in `common.go`
recognizes only nine. -/
theorem kafkaVersion_not_ten_versions :
    ¬ ∃ S : Finset String, S.card = 10 ∧
      ∀ s ∈ S, s ≠ "" ∧ (kafkaVersion s).isOk = true := by
  rintro ⟨S, hcard, hS⟩
  have hsub : S ⊆ supportedVersionStrings.toFinset := by
    intro s hs
    rw [List.mem_toFinset]
    exact kafkaVersion_isOk_mem (hS s hs).1 (hS s hs).2
  have hle : S.card ≤ supportedVersionStrings.toFinset.card :=
    Finset.card_le_card hsub
  have h9 : supportedVersionStrings.toFinset.card = 9 := by decide
  omega

/-- C6 (amended). The resolver recognizes exactly NINE non-empty
version strings: any other non-empty input produces the fatal
diagnostic naming the offending string; the empty string resolves to
the default version; each recognized string resolves to its
enumerated version (e.g. `"v0.10.1.0"`). -/
theorem kafkaVersion_nine_versions :
    supportedVersionStrings.length = 9 ∧
    (∀ s : String, s ≠ "" → s ∉ supportedVersionStrings →
      kafkaVersion s = .error ("unsupported kafka version " ++ s.quote ++
        " - supported: v0.8.2.0, v0.8.2.1, v0.8.2.2, v0.9.0.0, v0.9.0.1, v0.10.0.0, v0.10.0.1, v0.10.1.0, v0.10.2.0")) ∧
    kafkaVersion "" = .ok kafkaVersionDefault ∧
    supportedVersionStrings.map kafkaVersion =
      [.ok .V0_8_2_0, .ok .V0_8_2_1, .ok .V0_8_2_2, .ok .V0_9_0_0, .ok .V0_9_0_1,
       .ok .V0_10_0_0, .ok .V0_10_0_1, .ok .V0_10_1_0, .ok .V0_10_2_0] :=
  ⟨rfl, fun _ => kafkaVersion_unsupported, rfl, rfl⟩

/-- Witness for C6's quantified part at the unrecognized input
`"bogus"`. -/
theorem kafkaVersion_nine_versions_witness :
    kafkaVersion "bogus" = .error ("unsupported kafka version " ++ "bogus".quote ++
      " - supported: v0.8.2.0, v0.8.2.1, v0.8.2.2, v0.9.0.0, v0.9.0.1, v0.10.0.0, v0.10.0.1, v0.10.1.0, v0.10.2.0") :=
  kafkaVersion_nine_versions.2.1 "bogus" (by decide) (by decide)

/-! ### The transform selector (`getTransformValue`, C7)

`os.Getenv` becomes an explicit environment function (Go's `Getenv`
returns `""` for an unset variable, so `String → String` is the
faithful type). -/

/-- The resolved option value: the argument when non-empty, else the
environment variable's value (the `value` local in `common.go`). -/
def resolvedTransform (env : String → String) (envvar argvalue : String) : String :=
  if argvalue = "" then env envvar else argvalue

/-- Embedding of `getTransformValue` from `common.go`. -/
def getTransformValue (env : String → String)
    (name envvar argvalue : String) : Except String String :=
  let value := resolvedTransform env envvar argvalue
  if value = "string" ∨ value = "hex" ∨ value = "base64" then .ok value
  else if value = "" then .ok "string"
  else .error ("unsupported " ++ name ++ " argument " ++ value.quote ++
    ", only string, hex and base64 are supported")

/-- C7. The selector uses `argvalue` when non-empty, else the
environment variable, else empty; `"string"`, `"hex"` and `"base64"`
come back as-is, the empty resolved value becomes `"string"`, and
anything else is a recoverable error naming the option and the
offending value. -/
theorem getTransformValue_spec (env : String → String)
    (name envvar argvalue : String) :
    (argvalue ≠ "" → resolvedTransform env envvar argvalue = argvalue) ∧
    (argvalue = "" → resolvedTransform env envvar argvalue = env envvar) ∧
    (∀ v, resolvedTransform env envvar argvalue = v →
      (v = "string" ∨ v = "hex" ∨ v = "base64" →
        getTransformValue env name envvar argvalue = .ok v) ∧
      (v = "" → getTransformValue env name envvar argvalue = .ok "string") ∧
      (v ≠ "" → v ≠ "string" → v ≠ "hex" → v ≠ "base64" →
        getTransformValue env name envvar argvalue =
          .error ("unsupported " ++ name ++ " argument " ++ v.quote ++
            ", only string, hex and base64 are supported"))) := by
  refine ⟨fun h => by rw [resolvedTransform, if_neg h],
          fun h => by rw [resolvedTransform, if_pos h],
          fun v hv => ⟨fun hok => ?_, fun hempty => ?_, fun h0 h1 h2 h3 => ?_⟩⟩
  · unfold getTransformValue
    rw [hv, if_pos hok]
  · unfold getTransformValue
    rw [hv, hempty]
    rfl
  · unfold getTransformValue
    rw [hv, if_neg (by push_neg; exact ⟨h1, h2, h3⟩), if_neg h0]

/-- Witness for C7: environment fallback accepting `"hex"`, and the
error case at the argument `"bogus"`. -/
theorem getTransformValue_spec_witness :
    getTransformValue (fun _ => "hex") "format" "KT_FORMAT" "" = .ok "hex" ∧
    getTransformValue (fun _ => "") "format" "KT_FORMAT" "bogus" =
      .error ("unsupported " ++ "format" ++ " argument " ++ "bogus".quote ++
        ", only string, hex and base64 are supported") :=
  ⟨((getTransformValue_spec (fun _ => "hex") "format" "KT_FORMAT" "").2.2
      "hex" rfl).1 (Or.inr (Or.inl rfl)),
   ((getTransformValue_spec (fun _ => "") "format" "KT_FORMAT" "bogus").2.2
      "bogus" rfl).2.2 (by decide) (by decide) (by decide) (by decide)⟩

/-! ### The random token generator (`randomString`, C9)

The time-seeded `rand.Source` is abstracted as an explicit stream of
bytes; `r.Read(buf)` fills `buf` with the first `length` bytes of
the stream, and `fmt.Sprintf("%x", buf)` is two lowercase hex digits
per byte. -/

/-- Lowercase hex digit for a nibble, as produced by Go's `%x`. -/
def hexDigit (n : Nat) : Char :=
  if n < 10 then Char.ofNat (48 + n) else Char.ofNat (87 + n)

/-- The two hex digits `%x` prints for one byte. -/
def hexByte (b : Fin 256) : List Char :=
  [hexDigit (b.val / 16), hexDigit (b.val % 16)]

/-- Embedding of `randomString` from `common.go`, the randomness
source made explicit: draw `length` bytes, hex-encode them all, then
truncate the encoded string to `length` characters. -/
def randomString (stream : Nat → Fin 256) (length : Nat) : String :=
  ⟨((((List.range length).map stream).flatMap hexByte).take length)⟩

/-- The sixteen characters a lowercase hex encoding can produce. -/
def hexDigitChars : List Char := "0123456789abcdef".data

lemma flatMap_hexByte_length (l : List (Fin 256)) :
    (l.flatMap hexByte).length = 2 * l.length := by
  induction l with
  | nil => rfl
  | cons b bs ih =>
      rw [List.flatMap_cons, List.length_append, ih, List.length_cons]
      show 2 + 2 * bs.length = 2 * (bs.length + 1)
      ring

lemma hexDigit_mem {n : Nat} (h : n < 16) : hexDigit n ∈ hexDigitChars := by
  interval_cases n <;> decide

/-- C9. For every byte stream and every length, hex-encoding the
`length` drawn bytes yields `2*length` digits, the result is the
truncation of that encoding to exactly `length` characters, and
every character of the result is a hexadecimal digit. -/
theorem randomString_hex_token (stream : Nat → Fin 256) (length : Nat) :
    ((((List.range length).map stream).flatMap hexByte).length = 2 * length) ∧
    (randomString stream length).data =
      (((List.range length).map stream).flatMap hexByte).take length ∧
    (randomString stream length).length = length ∧
    ∀ c ∈ (randomString stream length).data, c ∈ hexDigitChars := by
  have hlen : (((List.range length).map stream).flatMap hexByte).length = 2 * length := by
    rw [flatMap_hexByte_length, List.length_map, List.length_range]
  refine ⟨hlen, rfl, ?_, ?_⟩
  · show ((((List.range length).map stream).flatMap hexByte).take length).length = length
    rw [List.length_take, hlen]
    omega
  · intro c hc
    have hc2 : c ∈ ((List.range length).map stream).flatMap hexByte :=
      List.take_subset _ _ hc
    rw [List.mem_flatMap] at hc2
    obtain ⟨b, _, hb⟩ := hc2
    simp only [hexByte, List.mem_cons, List.not_mem_nil, or_false] at hb
    rcases hb with h | h
    · exact h ▸ hexDigit_mem (Nat.div_lt_of_lt_mul b.isLt)
    · exact h ▸ hexDigit_mem (Nat.mod_lt _ (by norm_num))

/-- Witness for C9's membership part at a constant stream of the
byte `0xAB` and `length = 3` (token `"aba"`). -/
theorem randomString_hex_token_witness :
    (randomString (fun _ => (171 : Fin 256)) 3).length = 3 ∧
    'a' ∈ hexDigitChars :=
  ⟨(randomString_hex_token (fun _ => (171 : Fin 256)) 3).2.2.1,
   (randomString_hex_token (fun _ => (171 : Fin 256)) 3).2.2.2 'a' (by decide)⟩

/-! ### The output multiplexer (`print` and `printContext`, C5)

Interleaving semantics of the channel and the single consumer loop
in `common.go`: producers enqueue `printContext` records into the
FIFO channel; the `print` goroutine repeatedly dequeues one record,
writes its whole line to the output, and fires `done`. A trace is a
sequence of enqueue and print events; a print event removes the
channel's head record (FIFO) and appends exactly one complete line
to the output stream, atomically — the single consumer is the only
writer. Records carry an identifier so the claim's "A precedes B"
is expressible. -/

/-- An event of the multiplexer: a producer enqueues record `r`, or
the consumer dequeues record `r` and prints its line. -/
inductive MuxEvent where
  | enq (r : Nat)
  | out (r : Nat)
deriving DecidableEq

/-- One step of the multiplexer on the state (channel queue, output
stream). Printing requires the record to be the FIFO head; an
impossible step makes the trace invalid (`none`). -/
def muxStep : Option (List Nat × List Nat) → MuxEvent → Option (List Nat × List Nat)
  | none, _ => none
  | some (q, outp), .enq r => some (q ++ [r], outp)
  | some (q, outp), .out r =>
    match q with
    | [] => none
    | x :: q2 => if x = r then some (q2, outp ++ [r]) else none

/-- Run a trace from the empty channel and empty output. -/
def muxRun (t : List MuxEvent) : Option (List Nat × List Nat) :=
  t.foldl muxStep (some ([], []))

/-- The records enqueued along a trace, in enqueue order. -/
def muxEnqueues (t : List MuxEvent) : List Nat :=
  t.filterMap fun e => match e with | .enq r => some r | .out _ => none

lemma muxStep_none (t : List MuxEvent) :
    t.foldl muxStep none = none := by
  induction t with
  | nil => rfl
  | cons e t ih => rw [List.foldl_cons]; exact ih

lemma muxRun_invariant (t : List MuxEvent) :
    ∀ (q0 outp0 q outp : List Nat),
      t.foldl muxStep (some (q0, outp0)) = some (q, outp) →
      outp ++ q = outp0 ++ q0 ++ muxEnqueues t := by
  induction t with
  | nil =>
      intro q0 outp0 q outp h
      obtain ⟨rfl, rfl⟩ : q0 = q ∧ outp0 = outp := by
        cases h; exact ⟨rfl, rfl⟩
      simp [muxEnqueues]
  | cons e t ih =>
      intro q0 outp0 q outp h
      rw [List.foldl_cons] at h
      cases e with
      | enq r =>
          have h2 := ih (q0 ++ [r]) outp0 q outp h
          rw [h2]
          simp [muxEnqueues, List.filterMap_cons]
      | out r =>
          cases q0 with
          | nil =>
              rw [show muxStep (some ([], outp0)) (.out r) = none from rfl,
                muxStep_none] at h
              cases h
          | cons x q2 =>
              by_cases hx : x = r
              · rw [show muxStep (some (x :: q2, outp0)) (.out r) =
                  some (q2, outp0 ++ [r]) by simp [muxStep, hx]] at h
                have h2 := ih q2 (outp0 ++ [r]) q outp h
                rw [h2, hx]
                simp [muxEnqueues, List.filterMap_cons]
              · rw [show muxStep (some (x :: q2, outp0)) (.out r) = none by
                  simp [muxStep, hx], muxStep_none] at h
                cases h

/-- C5. In every valid trace of the multiplexer that drains the
channel, the output stream is EXACTLY the sequence of enqueued
records: one complete line per record, as many lines as enqueues
(`N×M` when `N` producers each enqueued `M` records), and record A's
line precedes record B's line precisely when A was enqueued before B
— the serialization order is the arrival order. -/
theorem mux_output_is_enqueue_order (t : List MuxEvent) (outp : List Nat) :
    muxRun t = some ([], outp) →
    outp = muxEnqueues t ∧ outp.length = (muxEnqueues t).length := by
  intro h
  have h2 := muxRun_invariant t [] [] [] outp h
  simp at h2
  exact ⟨h2, by rw [h2]⟩

/-- Witness for C5: two producers (records 1,2 and 3), interleaved
enqueues, the consumer draining the channel; the output is the
enqueue order `[1, 3, 2]`. -/
theorem mux_output_is_enqueue_order_witness :
    muxRun [.enq 1, .out 1, .enq 3, .enq 2, .out 3, .out 2] = some ([], [1, 3, 2]) ∧
    [1, 3, 2] = muxEnqueues [.enq 1, .out 1, .enq 3, .enq 2, .out 3, .out 2] :=
  ⟨by decide,
   (mux_output_is_enqueue_order [.enq 1, .out 1, .enq 3, .enq 2, .out 3, .out 2]
     [1, 3, 2] (by decide)).1⟩
